import Mathlib

/-!
Verification development for `scripts/build_vocabulary.py` of the
armenian-words repository.

Strings are modelled as lists of Unicode code points (`Str := List Nat`);
byte streams as lists of byte values (`List Nat`).  Python's case mapping
(`str.lower` / `str.islower`) is modelled on the code-point ranges the
program actually works with: ASCII, Cyrillic (U+0400–U+04FF) and Armenian
(U+0531–U+0587).  The float complexity score is represented exactly in
tenths as an `Int` (every constant in the scoring code — 0.1, 2.0, 1.5,
0.5 — is a multiple of 0.1, so the represented value is ten times the
Python score and the ordering of scores is preserved; no settled claim
depends on binary-float rounding).  Regular-expression
operations are modelled by direct scanning functions implementing the
leftmost-match semantics of the concrete patterns appearing in the source.
Recursive scanners take an explicit fuel argument (always instantiated with
the input length, which bounds the number of scanning steps) so that all
definitions compute by kernel reduction.
-/

/-- A Python string, as a list of Unicode code points. -/
abbrev Str := List Nat

/-- Convert a Lean string literal to the code-point model. -/
def str (s : String) : Str := s.data.map Char.toNat

/-- Python `\s` whitespace (the characters relevant to this program). -/
def isSpaceCp (c : Nat) : Bool :=
  c = 32 || c = 9 || c = 10 || c = 13 || c = 11 || c = 12

/-- ASCII digit `0`-`9` (the `\d` class / `str.isdigit` on this program's data). -/
def isDigitCp (c : Nat) : Bool := 48 ≤ c && c ≤ 57

/-- Latin letter `a`-`z` or `A`-`Z`. -/
def isLatinCp (c : Nat) : Bool := (97 ≤ c && c ≤ 122) || (65 ≤ c && c ≤ 90)

/-- Cyrillic block `Ѐ`-`ӿ`. -/
def isCyrCp (c : Nat) : Bool := 0x400 ≤ c && c ≤ 0x4FF

/-- The Armenian character class `[԰-֏Ա-Ֆ]` used by the
source (the second range is contained in the first). -/
def isArmCp (c : Nat) : Bool := 0x530 ≤ c && c ≤ 0x58F

/-- The Armenian letter class `[ա-ֆԱ-Ֆ]` of the word-class-marker pattern. -/
def isArmLetterCp (c : Nat) : Bool :=
  (0x561 ≤ c && c ≤ 0x586) || (0x531 ≤ c && c ≤ 0x556)

/-- Lowercase Armenian `[ա-ֆ]` (the "must have lowercase Armenian" filter). -/
def isArmLowerCp (c : Nat) : Bool := 0x561 ≤ c && c ≤ 0x586

/-- The Russian/English letter class `[Ѐ-ӿa-zA-Z]`. -/
def isRECp (c : Nat) : Bool := isCyrCp c || isLatinCp c

/-- Python `str.islower` per character, on the modelled ranges
(ASCII, Cyrillic, Armenian). -/
def isLowerCp (c : Nat) : Bool :=
  (97 ≤ c && c ≤ 122) || (0x430 ≤ c && c ≤ 0x45F) || (0x561 ≤ c && c ≤ 0x587)

/-- Python `str.lower` per character, on the modelled ranges. -/
def toLowerCp (c : Nat) : Nat :=
  if 65 ≤ c && c ≤ 90 then c + 32
  else if 0x410 ≤ c && c ≤ 0x42F then c + 0x20
  else if 0x400 ≤ c && c ≤ 0x40F then c + 0x50
  else if 0x531 ≤ c && c ≤ 0x556 then c + 0x30
  else c

/-- Python `str.lower` on a whole string. -/
def toLowerStr (w : Str) : Str := w.map toLowerCp

/-- Python `any(c.islower() for c in word)`. -/
def hasLower (w : Str) : Bool := w.any isLowerCp

/-- Python `str.strip()` (both-ends whitespace trim). -/
def strip (l : Str) : Str :=
  ((l.dropWhile isSpaceCp).reverse.dropWhile isSpaceCp).reverse

/-- Python `str.rstrip('.,;:!?')`. -/
def rstripPunct (l : Str) : Str :=
  (l.reverse.dropWhile (fun c => [46, 44, 59, 58, 33, 63].contains c)).reverse

/-- `re.sub(r'^\.+\s*', '', s)`: strip leading periods, then whitespace. -/
def stripLeadingDots (l : Str) : Str :=
  match l with
  | 46 :: _ => (l.dropWhile (· = 46)).dropWhile isSpaceCp
  | _ => l

/-- Helper for Python `str.split()`: collect maximal non-whitespace runs
from the right, carrying the current word. -/
def splitWSAux : Str → Str × List Str
  | [] => ([], [])
  | c :: rest =>
    let p := splitWSAux rest
    if isSpaceCp c then ([], if p.1 = [] then p.2 else p.1 :: p.2)
    else (c :: p.1, p.2)

/-- Python `str.split()` (split on whitespace runs, no empty fields). -/
def splitWS (l : Str) : List Str :=
  let p := splitWSAux l
  if p.1 = [] then p.2 else p.1 :: p.2

/-- `len(s.split())`. -/
def wordCount (l : Str) : Nat := (splitWS l).length

/-- `' '.join(segments)`. -/
def joinSpace (segs : List Str) : Str := List.intercalate [32] segs

/-- Order-preserving deduplication with an accumulator of already-seen keys:
the seen-set idiom of the source (`if meaning_lower not in seen`).  `key`
is the function producing the comparison key. -/
def dedupBy (key : Str → Str) : List Str → List Str → List Str
  | [], _ => []
  | x :: xs, seen =>
    if seen.contains (key x) then dedupBy key xs seen
    else x :: dedupBy key xs (key x :: seen)

/-- `re.sub(r'<[^>]+>', '', s)` as a left-to-right state machine.  `buf`
(reversed) holds the characters seen since an unclosed `<`; at end of input
an unclosed `<` and its buffer are emitted unchanged (no match). -/
def removeTagsGo : Option Str → Str → Str
  | none, [] => []
  | some buf, [] => 60 :: buf.reverse
  | none, x :: rest =>
    if x = 60 then removeTagsGo (some []) rest else x :: removeTagsGo none rest
  | some buf, x :: rest =>
    if x = 62 then
      match buf with
      | [] => 60 :: 62 :: removeTagsGo none rest
      | _ => removeTagsGo none rest
    else removeTagsGo (some (x :: buf)) rest

/-- `re.sub(r'<[^>]+>', '', s)`. -/
def removeTags (l : Str) : Str := removeTagsGo none l

/-- One scanning step of `re.sub(r'\(...[^c]*...\)', '', s)` style removal:
drop every `o` … first following `c` block (pattern `o[^c]*c`). -/
def removeDelimF (o c : Nat) : Nat → Str → Str
  | 0, l => l
  | _ + 1, [] => []
  | f + 1, x :: rest =>
    if x = o then
      match rest.dropWhile (· != c) with
      | _ :: after => removeDelimF o c f after
      | [] => x :: removeDelimF o c f rest
    else x :: removeDelimF o c f rest

/-- `re.sub(r'\([^)]*\)' / r'\[[^\]]*\]' / braces, '', s)` for a given
delimiter pair. -/
def removeDelim (o c : Nat) (l : Str) : Str := removeDelimF o c l.length l

/-- Try to match `\s*\d+\.\s+` at the head of `l`; on success return the
remaining input.  The character classes are disjoint, so the greedy
quantifiers need no backtracking. -/
def matchNum (l : Str) : Option Str :=
  let l1 := l.dropWhile isSpaceCp
  let ds := l1.takeWhile isDigitCp
  if ds = [] then none
  else
    match l1.dropWhile isDigitCp with
    | 46 :: l3 =>
      if (l3.takeWhile isSpaceCp) = [] then none
      else some (l3.dropWhile isSpaceCp)
    | _ => none

/-- `re.split(r'\s*\d+\.\s+', s)`: leftmost-scanning split. -/
def splitNumF : Nat → Str → List Str
  | 0, l => [l]
  | _ + 1, [] => [[]]
  | f + 1, l@(x :: rest) =>
    match matchNum l with
    | some rest2 => [] :: splitNumF f rest2
    | none =>
      match splitNumF f rest with
      | p :: ps => (x :: p) :: ps
      | [] => [[x]]

/-- `re.split(r'\s*\d+\.\s+', s)`. -/
def splitNum (l : Str) : List Str := splitNumF l.length l

/-- Try to match `[ա-ֆԱ-Ֆ]{1,k}\.` at the head with exactly `k` letters;
on success return the input after the period with `\s*` consumed. -/
def tryWCk (k : Nat) (l : Str) : Option Str :=
  let pre := l.take k
  if pre.length = k && pre.all isArmLetterCp then
    match l.drop k with
    | 46 :: rest => some (rest.dropWhile isSpaceCp)
    | _ => none
  else none

/-- Match `[ա-ֆԱ-Ֆ]{1,3}\.\s*` at the head (greedy: three letters first,
then two, then one). -/
def tryWC (l : Str) : Option Str :=
  (tryWCk 3 l).orElse fun _ => (tryWCk 2 l).orElse fun _ => tryWCk 1 l

/-- `re.sub(r'[ա-ֆԱ-Ֆ]{1,3}\.\s*', '', s)`: leftmost-scanning removal. -/
def removeWCF : Nat → Str → Str
  | 0, l => l
  | _ + 1, [] => []
  | f + 1, l@(x :: rest) =>
    match tryWC l with
    | some rest2 => removeWCF f rest2
    | none => x :: removeWCF f rest

/-- `re.sub(r'[ա-ֆԱ-Ֆ]{1,3}\.\s*', '', s)`. -/
def removeWC (l : Str) : Str := removeWCF l.length l

/-- The filler class `[Ѐ-ӿa-zA-Z\s,\.;:!?\-]` of the extraction pattern. -/
def isFillerCp (c : Nat) : Bool :=
  isRECp c || isSpaceCp c || [44, 46, 59, 58, 33, 63, 45].contains c

/-- Trim a filler run so that it ends at its last Russian/English letter
(empty if it contains none). -/
def trimLastRE (body : Str) : Str :=
  (body.reverse.dropWhile (fun c => !(isRECp c))).reverse

/-- `re.findall(r'[Ѐ-ӿa-zA-Z][Ѐ-ӿa-zA-Z\s,\.;:!?\-]*[Ѐ-ӿa-zA-Z]|[Ѐ-ӿa-zA-Z]+', s)`:
at each Russian/English letter, greedily take the filler run and backtrack
to its last letter (first alternative); a lone letter matches the second
alternative. -/
def findallREF : Nat → Str → List Str
  | 0, _ => []
  | _ + 1, [] => []
  | f + 1, x :: rest =>
    if isRECp x then
      let trimmed := trimLastRE (rest.takeWhile isFillerCp)
      if trimmed = [] then [x] :: findallREF f rest
      else (x :: trimmed) :: findallREF f (rest.drop trimmed.length)
    else findallREF f rest

/-- The Russian/English extraction `re.findall`. -/
def findallRE (l : Str) : List Str := findallREF l.length l

/-- Match a literal word at the head; return the rest on success. -/
def matchLit : Str → Str → Option Str
  | [], l => some l
  | p :: ps, c :: cs => if c = p then matchLit ps cs else none
  | _ :: _, [] => none

/-- Match `\s+` at the head (≥ 1 whitespace, greedy); return the rest. -/
def spaces1 : Str → Option Str
  | c :: cs => if isSpaceCp c then some (cs.dropWhile isSpaceCp) else none
  | [] => none

/-- Match a sequence of literal words separated by `\s+` at the head. -/
def matchWords : List Str → Str → Bool
  | [], _ => true
  | [w], l => (matchLit w l).isSome
  | w :: ws, l =>
    match matchLit w l with
    | some r1 =>
      match spaces1 r1 with
      | some r2 => matchWords ws r2
      | none => false
    | none => false

/-- Match `это\s+(и\s+)?есть` at the head. -/
def matchEtoEst (l : Str) : Bool :=
  match matchLit (str "это") l with
  | none => false
  | some r1 =>
    match spaces1 r1 with
    | none => false
    | some r2 =>
      (match matchLit (str "и") r2 with
       | some r3 =>
         match spaces1 r3 with
         | some r4 => (matchLit (str "есть") r4).isSome
         | none => false
       | none => false) || (matchLit (str "есть") r2).isSome

/-- `re.search`: try the head matcher at every position. -/
def searchWith (m : Str → Bool) (l : Str) : Bool := l.tails.any m

/-- The six usage-example patterns of the numbered-chunk path, applied to
the lowercased candidate. -/
def usagePatterns6 (low : Str) : Bool :=
  searchWith matchEtoEst low ||
  searchWith (matchWords [str "это", str "и", str "есть"]) low ||
  searchWith (matchWords [str "это", str "есть", str "наш"]) low ||
  searchWith (matchWords [str "это", str "есть", str "его"]) low ||
  searchWith (fun l => (matchLit (str "желание") l).isSome) low ||
  searchWith (matchWords [str "последний", str "бой"]) low

/-- The four usage-example patterns of the fallback path; `re.IGNORECASE`
is modelled by searching the lowercased segment (the patterns are all
lowercase). -/
def usagePatterns4 (low : Str) : Bool :=
  searchWith matchEtoEst low ||
  searchWith (matchWords [str "это", str "и", str "есть"]) low ||
  searchWith (matchWords [str "это", str "есть", str "наш"]) low ||
  searchWith (matchWords [str "это", str "есть", str "его"]) low

/-- The per-numbered-chunk processing of `clean_translation` (steps 3–5):
returns the extracted lowercased meaning, or `none` when the chunk is
rejected. -/
def processPart (numbered_part : Str) : Option Str :=
  let part0 := strip numbered_part
  if part0 = [] then none
  else
    let part1 := removeWC part0
    let main0 := strip (part1.takeWhile (fun c => !(isArmCp c)))
    if main0 = [] then none
    else
      let main1 := strip (removeDelim 123 125 (removeDelim 91 93 (removeDelim 40 41 main0)))
      if main1 = [] then none
      else
        let segs := findallRE main1
        if segs = [] then none
        else
          let e0 := strip (joinSpace segs)
          let e1 := stripLeadingDots e0
          let e2 := strip (rstripPunct e1)
          if e2.length < 2 then none
          else if !(e2.any isRECp) then none
          else if usagePatterns6 (toLowerStr e2) then none
          else if wordCount e2 > 4 then none
          else some (toLowerStr e2)

/-- The segment cleanup of the fallback path:
`segment.strip()`, `re.sub(r'^\.+\s*', '', segment)`,
`segment.rstrip('.,;:!?').strip()`. -/
def cleanSegment (seg : Str) : Str :=
  strip (rstripPunct (stripLeadingDots (strip seg)))

/-- The fallback rejection filter: segment survives only if its cleaned
form has length ≥ 2, contains no Armenian character, matches none of the
four fallback usage patterns, and splits into at most 5 words. -/
def fallbackKeep (seg : Str) : Option Str :=
  let s := cleanSegment seg
  if 2 ≤ s.length && !(s.any isArmCp) then
    if usagePatterns4 (toLowerStr s) || decide (wordCount s > 5) then none
    else some (toLowerStr s)
  else none

/-- `clean_translation`: returns `(meanings, usage_examples)`. -/
def clean_translation (translation : Str) : List Str × Str :=
  if translation = [] then ([], [])
  else
    let t1 := removeTags translation
    let translation_part := strip (t1.takeWhile (· != 0x25CA))
    let usage_examples :=
      match t1.dropWhile (· != 0x25CA) with
      | [] => []
      | _ :: after => strip after
    let numbered0 := splitNum translation_part
    let numbered :=
      match numbered0 with
      | p :: ps => if strip p = [] then ps else numbered0
      | [] => []
    let meanings1 := numbered.filterMap processPart
    let meanings :=
      if meanings1 = [] && !(strip translation_part = []) then
        (findallRE translation_part).filterMap fallbackKeep
      else meanings1
    (dedupBy toLowerStr meanings [], usage_examples)

/-- Strict UTF-8 decoding of a byte list to code points (rejects overlong
forms, surrogates and values above U+10FFFF, like Python's
`bytes.decode('utf-8')`). -/
def utf8DecodeF : Nat → List Nat → Option (List Nat)
  | 0, _ => none
  | _ + 1, [] => some []
  | f + 1, b :: rest =>
    if b < 0x80 then (utf8DecodeF f rest).map (b :: ·)
    else if b < 0xC2 then none
    else if b < 0xE0 then
      match rest with
      | b2 :: r2 =>
        if 0x80 ≤ b2 && b2 < 0xC0 then
          (utf8DecodeF f r2).map (((b - 0xC0) * 0x40 + (b2 - 0x80)) :: ·)
        else none
      | [] => none
    else if b < 0xF0 then
      match rest with
      | b2 :: b3 :: r3 =>
        let lo2 := if b = 0xE0 then 0xA0 else 0x80
        let hi2 := if b = 0xED then 0xA0 else 0xC0
        if lo2 ≤ b2 && b2 < hi2 && 0x80 ≤ b3 && b3 < 0xC0 then
          (utf8DecodeF f r3).map
            (((b - 0xE0) * 0x1000 + (b2 - 0x80) * 0x40 + (b3 - 0x80)) :: ·)
        else none
      | _ => none
    else if b < 0xF5 then
      match rest with
      | b2 :: b3 :: b4 :: r4 =>
        let lo2 := if b = 0xF0 then 0x90 else 0x80
        let hi2 := if b = 0xF4 then 0x90 else 0xC0
        if lo2 ≤ b2 && b2 < hi2 && 0x80 ≤ b3 && b3 < 0xC0 && 0x80 ≤ b4 && b4 < 0xC0 then
          (utf8DecodeF f r4).map
            (((b - 0xF0) * 0x40000 + (b2 - 0x80) * 0x1000 +
              (b3 - 0x80) * 0x40 + (b4 - 0x80)) :: ·)
        else none
      | _ => none
    else none

/-- Strict UTF-8 decoding. -/
def utf8Decode (l : List Nat) : Option (List Nat) :=
  utf8DecodeF (l.length + 1) l

/-- Read a null-terminated word from a byte stream: returns the word bytes
and the remaining stream, or `none` if end of input is reached before a
null byte. -/
def readWord : List Nat → Option (List Nat × List Nat)
  | [] => none
  | b :: rest =>
    if b = 0 then some ([], rest)
    else (readWord rest).map fun p => (b :: p.1, p.2)

/-- The `parse_stardict_idx` loop.  On a word whose bytes are not valid
UTF-8 the source executes `continue` directly after the null terminator,
without reading the offset/size fields — this is modelled exactly. -/
def parseIdxF : Nat → List Nat → List (Str × Nat × Nat)
  | 0, _ => []
  | f + 1, l =>
    match readWord l with
    | none => []
    | some (wb, rest) =>
      match utf8Decode wb with
      | none => parseIdxF f rest
      | some w =>
        match rest with
        | o1 :: o2 :: o3 :: o4 :: rest2 =>
          match rest2 with
          | s1 :: s2 :: s3 :: s4 :: rest3 =>
            (w, ((o1 * 256 + o2) * 256 + o3) * 256 + o4,
                ((s1 * 256 + s2) * 256 + s3) * 256 + s4) :: parseIdxF f rest3
          | _ => []
        | _ => []

/-- `parse_stardict_idx` on an in-memory byte stream. -/
def parse_stardict_idx (l : List Nat) : List (Str × Nat × Nat) :=
  parseIdxF (l.length + 1) l

/-- The OCR-fix substitution table of `fix_ocr_pronunciation`. -/
def ocr_fixes : List (Str × Str) :=
  [(str "879", str "azq"), (str "8", str "a"), (str "7", str "z"),
   (str "9", str "q"), (str "0", str "o"), (str "1", str "l"),
   (str "5", str "s")]

/-- `fix_ocr_pronunciation`. -/
def fix_ocr_pronunciation (pron : Str) : Str :=
  if pron = [] then pron
  else
    match ocr_fixes.lookup pron with
    | some v => v
    | none =>
      if pron.all isDigitCp && decide (pron.length ≤ 5) then
        pron.flatMap fun c =>
          match ocr_fixes.lookup [c] with
          | some v => v
          | none => [c]
      else pron

/-- The per-key data of the English (PDF) dictionary:
`{'english': [...], 'pronunciation': ...}`. -/
structure EnData where
  english : List Str
  pronunciation : Option Str
deriving DecidableEq

/-- A merged vocabulary entry `{'am': ..., 'ru': ..., 'en': ..., 'spell': ...}`
(`spell` is absent when no pronunciation was recorded). -/
structure VocabEntry where
  am : Str
  ru : List Str
  en : List Str
  spell : Option Str
deriving DecidableEq

/-- The normalized lookup maps `{k.lower(): (k, v) for k, v in d.items()}`:
on duplicate lowercased keys the later insertion overwrites the earlier,
so lookup returns the last matching association. -/
def normLookup {α : Type} (d : List (Str × α)) (nw : Str) : Option (Str × α) :=
  match d with
  | [] => none
  | kv :: rest =>
    match normLookup rest nw with
    | some r => some r
    | none => if toLowerStr kv.1 = nw then some kv else none

/-- The body of the merge loop of `merge_vocabularies` for one normalized
common word: builds the entry, or `none` when the English gloss list is
empty (or the word is missing from either normalized map). -/
def mergeKey (armenian_russian : List (Str × List Str))
    (armenian_english : List (Str × EnData)) (nw : Str) : Option VocabEntry :=
  match normLookup armenian_russian nw, normLookup armenian_english nw with
  | some (kru, vru), some (ken, ven) =>
    let armenian_word := if hasLower ken then ken else kru
    if ven.english = [] then none
    else
      some { am := armenian_word
             ru := vru
             en := dedupBy id ven.english []
             spell :=
               match ven.pronunciation with
               | some p => if p = [] then none else some p
               | none => none }
  | _, _ => none

/-- `merge_vocabularies`, parameterized by the enumeration order of
`common_words_normalized`.  In CPython that order is the iteration order
of a `set` of strings, which depends on the per-process hash seed; it is
therefore an explicit argument here, not a function of the two maps. -/
def merge_vocabularies (armenian_russian : List (Str × List Str))
    (armenian_english : List (Str × EnData)) (order : List Str) :
    List VocabEntry :=
  order.filterMap (mergeKey armenian_russian armenian_english)

/-- The lowercased key list of a source dictionary. -/
def lowerKeys {α : Type} (d : List (Str × α)) : List Str :=
  d.map fun kv => toLowerStr kv.1

/-- A canonical enumeration of
`set(russian_normalized.keys()) & set(english_normalized.keys())`
(first-seen order of the Russian side); any permutation of it is an
equally valid iteration order of the CPython set. -/
def commonKeys (armenian_russian : List (Str × List Str))
    (armenian_english : List (Str × EnData)) : List Str :=
  (dedupBy id (lowerKeys armenian_russian) []).filter
    fun k => (lowerKeys armenian_english).contains k

/-- The abstractness-suffix list of `calculate_word_complexity`. -/
def abstract_suffixes : List Str :=
  [str "ություն", str "ական", str "ային", str "ավոր", str "ականություն"]

/-- Python `word.endswith(suffix)`. -/
def endsWith (w s : Str) : Bool := s.isSuffixOf w

/-- `calculate_word_complexity`, with the float score represented exactly
in tenths (`+= len(word) * 0.1` is `+ len * 1`, `+= 2.0` is `+ 20`,
`+= 1.5` is `+ 15`, `-= 0.5` is `- 5`). -/
def calculate_word_complexity (word : Str) (has_pronunciation : Bool) : Int :=
  let score : Int := 0 + (word.length : Int) * 1
  let score :=
    abstract_suffixes.foldl
      (fun acc suffix => if endsWith word suffix then acc + 20 else acc) score
  let score :=
    if word.contains 45 || decide (word.length > 15) then score + 15
    else score
  if has_pronunciation then score - 5 else score

/-- `'spell' in entry and entry['spell']` (Python truthiness). -/
def spellTruthy (e : VocabEntry) : Bool :=
  match e.spell with
  | some p => !(p = [])
  | none => false

/-- The complexity score the leveler computes for an entry. -/
def complexityOf (e : VocabEntry) : Int :=
  calculate_word_complexity e.am (spellTruthy e)

/-- The sorting relation of `vocabulary_with_scores.sort(key=lambda x: x[0])`. -/
def scoreLE (a b : VocabEntry) : Prop := complexityOf a ≤ complexityOf b

instance : DecidableRel scoreLE := fun a b =>
  inferInstanceAs (Decidable (complexityOf a ≤ complexityOf b))

/-- The four CEFR tiers. -/
structure Leveled where
  a1 : List VocabEntry
  a2 : List VocabEntry
  b1 : List VocabEntry
  b2 : List VocabEntry
deriving DecidableEq

/-- The concatenation of the four tiers. -/
def Leveled.concat4 (st : Leveled) : List VocabEntry :=
  st.a1 ++ st.a2 ++ st.b1 ++ st.b2

/-- One iteration of the level-assignment loop (`i` is the enumerate index). -/
def levelStep (per_level i : Nat) (e : VocabEntry) (st : Leveled) : Leveled :=
  if st.a1.length < per_level then { st with a1 := st.a1 ++ [e] }
  else if st.a2.length < per_level then { st with a2 := st.a2 ++ [e] }
  else if st.b1.length < per_level then { st with b1 := st.b1 ++ [e] }
  else if st.b2.length < per_level then { st with b2 := st.b2 ++ [e] }
  else if i % 4 = 0 then { st with a1 := st.a1 ++ [e] }
  else if i % 4 = 1 then { st with a2 := st.a2 ++ [e] }
  else if i % 4 = 2 then { st with b1 := st.b1 ++ [e] }
  else { st with b2 := st.b2 ++ [e] }

/-- The level-assignment loop over the sorted vocabulary. -/
def assignLoop (per_level : Nat) : Nat → List VocabEntry → Leveled → Leveled
  | _, [], st => st
  | i, e :: rest, st => assignLoop per_level (i + 1) rest (levelStep per_level i e st)

/-- `assign_levels`: stable sort by complexity, then fill the four tiers to
`per_level = min(total // 4, max_per_level)` in order, distributing the
remaining entries round-robin by `i % 4`. -/
def assign_levels (vocabulary : List VocabEntry) (max_per_level : Nat) : Leveled :=
  let sorted := List.insertionSort scoreLE vocabulary
  let per_level := min (vocabulary.length / 4) max_per_level
  assignLoop per_level 0 sorted ⟨[], [], [], []⟩

/-- The merge-then-level pipeline (still parameterized by the set
iteration order of the common keys). -/
def pipeline (armenian_russian : List (Str × List Str))
    (armenian_english : List (Str × EnData)) (order : List Str)
    (max_per_level : Nat) : Leveled :=
  assign_levels (merge_vocabularies armenian_russian armenian_english order)
    max_per_level

/-- Round-robin share of the overflow `n - 4p` that lands in the tier with
residue offset `k` (tier 1 gets offset 3, tier 2 offset 2, …). -/
def tierPad (p n k : Nat) : Nat := (n - 4 * p + k) / 4

/-- Closed form for the length of tier A1 after `n` loop iterations. -/
def tierLen1 (p n : Nat) : Nat := min n p + tierPad p n 3

/-- Closed form for the length of tier A2 after `n` loop iterations. -/
def tierLen2 (p n : Nat) : Nat := min (n - p) p + tierPad p n 2

/-- Closed form for the length of tier B1 after `n` loop iterations. -/
def tierLen3 (p n : Nat) : Nat := min (n - 2 * p) p + tierPad p n 1

/-- Closed form for the length of tier B2 after `n` loop iterations. -/
def tierLen4 (p n : Nat) : Nat := min (n - 3 * p) p + tierPad p n 0

/-- A two-key Russian-side dictionary used as concrete witness input. -/
def wRu : List (Str × List Str) := [(str "a", [str "x"]), (str "b", [str "y"])]

/-- A two-key English-side dictionary used as concrete witness input. -/
def wEn : List (Str × EnData) :=
  [(str "a", ⟨[str "p"], none⟩), (str "b", ⟨[str "q"], none⟩)]

/-- A one-key Russian-side dictionary whose key has no lowercase letter. -/
def wRu2 : List (Str × List Str) := [(str "ԱԲ", [str "x"])]

/-- A one-key English-side dictionary whose key has no lowercase letter. -/
def wEn2 : List (Str × EnData) := [(str "ԱԲ", ⟨[str "home"], none⟩)]

/-- An index byte stream whose first record's word byte `0xFF` is not valid
UTF-8, followed by a well-formed record `"abc"`, offset 1, size 2. -/
def badIdxBytes : List Nat :=
  [255, 0] ++ [0, 0, 0, 5] ++ [0, 0, 0, 3] ++
  [97, 98, 99, 0] ++ [0, 0, 0, 1] ++ [0, 0, 0, 2]

/-- The index byte stream of the spec scenario:
`"abc\x00\x00\x00\x00\x05\x00\x00\x00\x03"`. -/
def idxScenarioBytes : List Nat :=
  [97, 98, 99, 0] ++ [0, 0, 0, 5] ++ [0, 0, 0, 3]

theorem toLowerCp_inj_of_not_lower {c1 c2 : Nat} (h1 : isLowerCp c1 = false)
    (h2 : isLowerCp c2 = false) (h : toLowerCp c1 = toLowerCp c2) : c1 = c2 := by
  simp only [isLowerCp, Bool.or_eq_false_iff, Bool.and_eq_false_iff,
    decide_eq_false_iff_not, not_le] at h1 h2
  simp only [toLowerCp, Bool.and_eq_true, decide_eq_true_eq] at h
  split_ifs at h <;> omega

theorem toLowerStr_inj_of_not_hasLower :
    ∀ {a b : Str}, hasLower a = false → hasLower b = false →
      toLowerStr a = toLowerStr b → a = b
  | [], [], _, _, _ => rfl
  | [], _ :: _, _, _, h => by simp [toLowerStr] at h
  | _ :: _, [], _, _, h => by simp [toLowerStr] at h
  | x :: xs, y :: ys, h1, h2, h => by
    simp only [hasLower, List.any_cons, Bool.or_eq_false_iff] at h1 h2
    simp only [toLowerStr, List.map_cons, List.cons.injEq] at h
    have hx := toLowerCp_inj_of_not_lower h1.1 h2.1 h.1
    have ht := toLowerStr_inj_of_not_hasLower h1.2 h2.2 h.2
    rw [hx, ht]

theorem normLookup_some {α : Type} :
    ∀ {d : List (Str × α)} {nw k : Str} {v : α},
      normLookup d nw = some (k, v) → toLowerStr k = nw ∧ (k, v) ∈ d
  | [], _, _, _, h => by simp [normLookup] at h
  | kv :: rest, nw, k, v, h => by
    rw [normLookup] at h
    cases hr : normLookup rest nw with
    | some r =>
      rw [hr] at h
      obtain rfl : r = (k, v) := by simpa using h
      have := normLookup_some hr
      exact ⟨this.1, List.mem_cons_of_mem _ this.2⟩
    | none =>
      rw [hr] at h
      by_cases hc : toLowerStr kv.1 = nw
      · simp only [hc, if_pos rfl] at h
        obtain rfl : kv = (k, v) := by simpa using h
        exact ⟨hc, List.mem_cons_self _ _⟩
      · simp [hc] at h

theorem dedupBy_cons_ne_nil (key : Str → Str) (x : Str) (xs : List Str) :
    dedupBy key (x :: xs) [] ≠ [] := by
  simp [dedupBy, List.contains]

theorem mergeKey_some {armenian_russian : List (Str × List Str)}
    {armenian_english : List (Str × EnData)} {nw : Str} {e : VocabEntry}
    (h : mergeKey armenian_russian armenian_english nw = some e) :
    ∃ kru vru ken ven,
      normLookup armenian_russian nw = some (kru, vru) ∧
      normLookup armenian_english nw = some (ken, ven) ∧
      ven.english ≠ [] ∧
      e.am = (if hasLower ken then ken else kru) ∧
      e.ru = vru ∧ e.en = dedupBy id ven.english [] := by
  unfold mergeKey at h
  cases hru : normLookup armenian_russian nw with
  | none => rw [hru] at h; exact absurd h (by simp)
  | some pru =>
    cases hen : normLookup armenian_english nw with
    | none => rw [hru, hen] at h; exact absurd h (by simp)
    | some pen =>
      obtain ⟨kru, vru⟩ := pru
      obtain ⟨ken, ven⟩ := pen
      rw [hru, hen] at h
      simp only at h
      by_cases hne : ven.english = []
      · rw [if_pos hne] at h; exact absurd h (by simp)
      · rw [if_neg hne] at h
        obtain rfl : _ = e := Option.some.inj h
        exact ⟨kru, vru, ken, ven, rfl, rfl, hne, rfl, rfl, rfl⟩

/-- C2: Merge invariant — for every entry produced by `merge_vocabularies`,
the lowercase of its source word (`am` field) is a member of the
intersection of the lowercased key sets of the two input dictionaries,
and its English gloss list (`en` field) is non-empty. -/
theorem c2_merge_invariant (armenian_russian : List (Str × List Str))
    (armenian_english : List (Str × EnData)) (order : List Str)
    (e : VocabEntry)
    (he : e ∈ merge_vocabularies armenian_russian armenian_english order) :
    (toLowerStr e.am ∈ lowerKeys armenian_russian ∧
     toLowerStr e.am ∈ lowerKeys armenian_english) ∧ e.en ≠ [] := by
  obtain ⟨nw, _, hk⟩ := List.mem_filterMap.1 he
  obtain ⟨kru, vru, ken, ven, hru, hen, hne, ham, _, hen2⟩ := mergeKey_some hk
  have hru2 := normLookup_some hru
  have hen3 := normLookup_some hen
  have hlow : toLowerStr e.am = nw := by
    rw [ham]
    by_cases hc : hasLower ken
    · rw [if_pos hc]; exact hen3.1
    · rw [if_neg hc]; exact hru2.1
  constructor
  · constructor
    · rw [hlow, ← hru2.1]
      exact List.mem_map_of_mem _ hru2.2
    · rw [hlow, ← hen3.1]
      exact List.mem_map_of_mem _ hen3.2
  · rw [hen2]
    cases hev : ven.english with
    | nil => exact absurd hev hne
    | cons x xs => exact dedupBy_cons_ne_nil id x xs

/-- Witness for C2 at a concrete merge: the entry built from key `"a"` of
the two-key inputs `wRu`, `wEn`. -/
theorem c2_merge_invariant_witness :
    (toLowerStr (VocabEntry.mk (str "a") [str "x"] [str "p"] none).am ∈
       lowerKeys wRu ∧
     toLowerStr (VocabEntry.mk (str "a") [str "x"] [str "p"] none).am ∈
       lowerKeys wEn) ∧
    (VocabEntry.mk (str "a") [str "x"] [str "p"] none).en ≠ [] :=
  c2_merge_invariant wRu wEn [str "a", str "b"] _ (by decide)

/-- C5: Merge casing rule — the produced entry's source word is the
originally-cased spelling from whichever source contains lowercase
letters; when both spellings contain lowercase letters, and also when
neither does, the entry carries the gloss (English/PDF) source's spelling.
In the "neither" case the two spellings are lowercase-free strings with
equal lowercasings, hence equal, so the Russian-side spelling the code
picks is the gloss source's spelling. -/
theorem c5_merge_casing (armenian_russian : List (Str × List Str))
    (armenian_english : List (Str × EnData)) (nw kru ken : Str)
    (vru : List Str) (ven : EnData) (e : VocabEntry)
    (hru : normLookup armenian_russian nw = some (kru, vru))
    (hen : normLookup armenian_english nw = some (ken, ven))
    (he : mergeKey armenian_russian armenian_english nw = some e) :
    (hasLower ken = true → e.am = ken) ∧
    (hasLower kru = true ∧ hasLower ken = false → e.am = kru) ∧
    (hasLower kru = false ∧ hasLower ken = false → e.am = ken) := by
  obtain ⟨kru2, vru2, ken2, ven2, hru2, hen2, _, ham, _, _⟩ := mergeKey_some he
  obtain ⟨rfl, rfl⟩ : kru = kru2 ∧ vru = vru2 := by
    have := hru.symm.trans hru2
    exact ⟨congrArg (·.1) (Option.some.inj this), congrArg (·.2) (Option.some.inj this)⟩
  obtain ⟨rfl, rfl⟩ : ken = ken2 ∧ ven = ven2 := by
    have := hen.symm.trans hen2
    exact ⟨congrArg (·.1) (Option.some.inj this), congrArg (·.2) (Option.some.inj this)⟩
  refine ⟨fun hk => ?_, fun hk => ?_, fun hk => ?_⟩
  · rw [ham, if_pos hk]
  · rw [ham, if_neg (by simp [hk.2])]
  · have hkeq : kru = ken := by
      apply toLowerStr_inj_of_not_hasLower hk.1 hk.2
      rw [(normLookup_some hru).1, (normLookup_some hen).1]
    rw [ham, if_neg (by simp [hk.2]), hkeq]

/-- Witness for C5 at the concrete one-key inputs `wRu2`, `wEn2`, both of
whose spellings are uppercase-only Armenian. -/
theorem c5_merge_casing_witness :
    (hasLower (str "ԱԲ") = true →
      (VocabEntry.mk (str "ԱԲ") [str "x"] [str "home"] none).am = str "ԱԲ") ∧
    (hasLower (str "ԱԲ") = true ∧ hasLower (str "ԱԲ") = false →
      (VocabEntry.mk (str "ԱԲ") [str "x"] [str "home"] none).am = str "ԱԲ") ∧
    (hasLower (str "ԱԲ") = false ∧ hasLower (str "ԱԲ") = false →
      (VocabEntry.mk (str "ԱԲ") [str "x"] [str "home"] none).am = str "ԱԲ") :=
  c5_merge_casing wRu2 wEn2 (str "աբ") (str "ԱԲ") (str "ԱԲ") [str "x"]
    ⟨[str "home"], none⟩ _ (by decide) (by decide) (by decide)

/-- C3 counterexample: the merge-then-level pipeline is not a function of
the two input dictionaries alone.  `commonKeys wRu wEn` and its reverse
are two enumerations of the same common-key set (each is duplicate-free
and a permutation of the other), yet the pipeline outputs differ: the two
merged entries have equal complexity scores, the stable sort keeps their
encounter order, and the round-robin distribution then sends different
entries to tier A1.  In CPython the enumeration order of
`set(...) & set(...)` over strings varies with the per-process hash seed,
so two runs on identical inputs can produce the two different outputs
exhibited here. -/
theorem c3_pipeline_order_dependent :
    (commonKeys wRu wEn).Perm (commonKeys wRu wEn).reverse ∧
    (commonKeys wRu wEn).Nodup ∧
    pipeline wRu wEn (commonKeys wRu wEn) 2500 ≠
      pipeline wRu wEn (commonKeys wRu wEn).reverse 2500 := by
  refine ⟨?_, by decide, by decide⟩
  exact (List.reverse_perm _).symm

/-- C3 amended: for a fixed enumeration order of the common-key set the
pipeline is a deterministic function of its inputs, and across different
enumeration orders (different hash seeds) the merged vocabulary is
preserved up to permutation — the multiset of produced entries does not
depend on the order, only their sequence does. -/
theorem c3_merge_perm_of_order_perm (armenian_russian : List (Str × List Str))
    (armenian_english : List (Str × EnData)) (o1 o2 : List Str)
    (h : o1.Perm o2) :
    (merge_vocabularies armenian_russian armenian_english o1).Perm
      (merge_vocabularies armenian_russian armenian_english o2) :=
  h.filterMap (mergeKey armenian_russian armenian_english)

/-- Witness for the amended C3 at the two concrete enumeration orders of
`commonKeys wRu wEn`. -/
theorem c3_merge_perm_witness :
    (merge_vocabularies wRu wEn (commonKeys wRu wEn)).Perm
      (merge_vocabularies wRu wEn (commonKeys wRu wEn).reverse) :=
  c3_merge_perm_of_order_perm wRu wEn _ _ ((List.reverse_perm _).symm)

theorem levelStep_concat4_perm (per_level i : Nat) (e : VocabEntry)
    (st : Leveled) :
    (levelStep per_level i e st).concat4.Perm (st.concat4 ++ [e]) := by
  rw [← Multiset.coe_eq_coe]
  unfold levelStep Leveled.concat4
  split_ifs <;>
    simp only [← Multiset.coe_add] <;>
    abel

theorem assignLoop_concat4_perm (per_level : Nat) :
    ∀ (l : List VocabEntry) (i : Nat) (st : Leveled),
      (assignLoop per_level i l st).concat4.Perm (st.concat4 ++ l)
  | [], i, st => by simp [assignLoop]
  | e :: rest, i, st => by
    rw [assignLoop]
    refine (assignLoop_concat4_perm per_level rest (i + 1)
      (levelStep per_level i e st)).trans ?_
    have hp := (levelStep_concat4_perm per_level i e st).append_right rest
    simpa using hp

set_option maxHeartbeats 2000000 in
theorem levelStep_lengths (per_level i : Nat) (e : VocabEntry) (st : Leveled)
    (h1 : st.a1.length = tierLen1 per_level i)
    (h2 : st.a2.length = tierLen2 per_level i)
    (h3 : st.b1.length = tierLen3 per_level i)
    (h4 : st.b2.length = tierLen4 per_level i) :
    (levelStep per_level i e st).a1.length = tierLen1 per_level (i + 1) ∧
    (levelStep per_level i e st).a2.length = tierLen2 per_level (i + 1) ∧
    (levelStep per_level i e st).b1.length = tierLen3 per_level (i + 1) ∧
    (levelStep per_level i e st).b2.length = tierLen4 per_level (i + 1) := by
  simp only [tierLen1, tierLen2, tierLen3, tierLen4, tierPad] at h1 h2 h3 h4 ⊢
  unfold levelStep
  split_ifs <;>
    refine ⟨?_, ?_, ?_, ?_⟩ <;>
    simp only [List.length_append, List.length_cons, List.length_nil] <;>
    omega

theorem assignLoop_lengths (per_level : Nat) :
    ∀ (l : List VocabEntry) (i : Nat) (st : Leveled),
      st.a1.length = tierLen1 per_level i →
      st.a2.length = tierLen2 per_level i →
      st.b1.length = tierLen3 per_level i →
      st.b2.length = tierLen4 per_level i →
      (assignLoop per_level i l st).a1.length = tierLen1 per_level (i + l.length) ∧
      (assignLoop per_level i l st).a2.length = tierLen2 per_level (i + l.length) ∧
      (assignLoop per_level i l st).b1.length = tierLen3 per_level (i + l.length) ∧
      (assignLoop per_level i l st).b2.length = tierLen4 per_level (i + l.length)
  | [], i, st, h1, h2, h3, h4 => by
    simpa [assignLoop] using ⟨h1, h2, h3, h4⟩
  | e :: rest, i, st, h1, h2, h3, h4 => by
    rw [assignLoop]
    obtain ⟨g1, g2, g3, g4⟩ := levelStep_lengths per_level i e st h1 h2 h3 h4
    have hrec := assignLoop_lengths per_level rest (i + 1)
      (levelStep per_level i e st) g1 g2 g3 g4
    have hlen : i + (e :: rest).length = i + 1 + rest.length := by
      simp only [List.length_cons]; omega
    rw [hlen]
    exact hrec

/-- C1: Leveling partition invariant — every entry of the input vocabulary
list appears in exactly one of the four tiers produced by `assign_levels`
(the concatenation of the four tiers is a permutation of the input, so no
entry is omitted and none duplicated), and the four tier sizes differ
pairwise by at most 3 (in fact by at most 1, which in particular covers
the case where the total count is not divisible by 4). -/
theorem c1_assign_levels_partition_balanced (vocabulary : List VocabEntry)
    (max_per_level : Nat) :
    ((assign_levels vocabulary max_per_level).a1 ++
     (assign_levels vocabulary max_per_level).a2 ++
     (assign_levels vocabulary max_per_level).b1 ++
     (assign_levels vocabulary max_per_level).b2).Perm vocabulary ∧
    Nat.dist (assign_levels vocabulary max_per_level).a1.length
      (assign_levels vocabulary max_per_level).a2.length ≤ 3 ∧
    Nat.dist (assign_levels vocabulary max_per_level).a1.length
      (assign_levels vocabulary max_per_level).b1.length ≤ 3 ∧
    Nat.dist (assign_levels vocabulary max_per_level).a1.length
      (assign_levels vocabulary max_per_level).b2.length ≤ 3 ∧
    Nat.dist (assign_levels vocabulary max_per_level).a2.length
      (assign_levels vocabulary max_per_level).b1.length ≤ 3 ∧
    Nat.dist (assign_levels vocabulary max_per_level).a2.length
      (assign_levels vocabulary max_per_level).b2.length ≤ 3 ∧
    Nat.dist (assign_levels vocabulary max_per_level).b1.length
      (assign_levels vocabulary max_per_level).b2.length ≤ 3 := by
  have hsortlen : (List.insertionSort scoreLE vocabulary).length =
      vocabulary.length := (List.perm_insertionSort scoreLE vocabulary).length_eq
  have hperm0 := assignLoop_concat4_perm
    (min (vocabulary.length / 4) max_per_level)
    (List.insertionSort scoreLE vocabulary) 0 ⟨[], [], [], []⟩
  have hlens := assignLoop_lengths (min (vocabulary.length / 4) max_per_level)
    (List.insertionSort scoreLE vocabulary) 0 ⟨[], [], [], []⟩
    (by simp [tierLen1, tierPad]) (by simp [tierLen2, tierPad])
    (by simp [tierLen3, tierPad]) (by simp [tierLen4, tierPad])
  rw [hsortlen] at hlens
  have h4p : 4 * min (vocabulary.length / 4) max_per_level ≤
      vocabulary.length := by omega
  constructor
  · have : (assign_levels vocabulary max_per_level).concat4.Perm
        (List.insertionSort scoreLE vocabulary) := by
      simpa [assign_levels, Leveled.concat4] using hperm0
    exact (this.trans (List.perm_insertionSort scoreLE vocabulary))
  · obtain ⟨g1, g2, g3, g4⟩ := hlens
    have e1 : (assign_levels vocabulary max_per_level).a1.length =
        tierLen1 (min (vocabulary.length / 4) max_per_level)
          vocabulary.length := by simpa [assign_levels] using g1
    have e2 : (assign_levels vocabulary max_per_level).a2.length =
        tierLen2 (min (vocabulary.length / 4) max_per_level)
          vocabulary.length := by simpa [assign_levels] using g2
    have e3 : (assign_levels vocabulary max_per_level).b1.length =
        tierLen3 (min (vocabulary.length / 4) max_per_level)
          vocabulary.length := by simpa [assign_levels] using g3
    have e4 : (assign_levels vocabulary max_per_level).b2.length =
        tierLen4 (min (vocabulary.length / 4) max_per_level)
          vocabulary.length := by simpa [assign_levels] using g4
    rw [e1, e2, e3, e4]
    simp only [tierLen1, tierLen2, tierLen3, tierLen4, tierPad, Nat.dist]
    refine ⟨?_, ?_, ?_, ?_, ?_, ?_⟩ <;> omega

theorem prefixComparable :
    ∀ (p1 p2 w : List Nat), p1 <+: w → p2 <+: w → p1.length ≤ p2.length →
      p1 <+: p2
  | [], p2, _, _, _, _ => List.nil_prefix
  | x :: p1, p2, w, h1, h2, hlen => by
    cases p2 with
    | nil => simp at hlen
    | cons y p2 =>
      cases w with
      | nil => exact absurd h1 (by simp)
      | cons z w =>
        rw [List.cons_prefix_cons] at h1 h2
        obtain ⟨hxz, h1t⟩ := h1
        obtain ⟨hyz, h2t⟩ := h2
        subst hxz
        rw [List.cons_prefix_cons]
        exact ⟨hyz.symm, prefixComparable p1 p2 w h1t h2t (by simpa using hlen)⟩

theorem suffixComparable (s1 s2 w : List Nat) (h1 : s1 <:+ w) (h2 : s2 <:+ w)
    (hlen : s1.length ≤ s2.length) : s1 <:+ s2 := by
  rw [← List.reverse_prefix] at h1 h2 ⊢
  exact prefixComparable _ _ _ h1 h2 (by simpa using hlen)

theorem endsWith_iff_suffix {w s : Str} : endsWith w s = true ↔ s <:+ w := by
  simp [endsWith, List.isSuffixOf_iff_suffix]

theorem not_endsWith_pair (w s1 s2 : Str) (hs : s1.length ≤ s2.length)
    (hne : endsWith s2 s1 = false) (h1 : endsWith w s1 = true)
    (h2 : endsWith w s2 = true) : False := by
  have hsuf := suffixComparable s1 s2 w (endsWith_iff_suffix.1 h1)
    (endsWith_iff_suffix.1 h2) hs
  rw [← endsWith_iff_suffix, hne] at hsuf
  exact Bool.false_ne_true hsuf

/-- C7 counterexample: for the word `"ականություն"` two suffixes of the
fixed abstractness-suffix set match as word endings (`"ություն"` and
`"ականություն"` itself), so the +2.0 bonus is added twice:
the score is 1.1 + 2.0 + 2.0 = 5.1 (51 in tenths), not 3.1.  This refutes
"at most one suffix of the fixed set matches as a word ending". -/
theorem c7_suffix_double_match :
    (abstract_suffixes.filter (fun s => endsWith (str "ականություն") s)).length
      = 2 ∧
    calculate_word_complexity (str "ականություն") false = 51 := by
  decide

/-- C7 amended: for every word at most TWO suffixes of the fixed set match
as word endings, and exactly two match precisely when the word ends in
`"ականություն"` (whose proper suffix `"ություն"` is also in the set);
for every other word at most one matches.  The +2.0 bonus is therefore
added at most twice, and twice exactly on `-ականություն` words. -/
theorem c7_suffix_match_count (word : Str) :
    (abstract_suffixes.filter (fun s => endsWith word s)).length ≤ 2 ∧
    ((abstract_suffixes.filter (fun s => endsWith word s)).length = 2 ↔
      endsWith word (str "ականություն") = true) := by
  by_cases e5 : endsWith word (str "ականություն") = true
  · have he1 : endsWith word (str "ություն") = true := by
      have h5 := endsWith_iff_suffix.1 e5
      have ht : (str "ություն") <:+ (str "ականություն") :=
        endsWith_iff_suffix.1 (by decide)
      exact endsWith_iff_suffix.2 (ht.trans h5)
    have he2 : ¬ endsWith word (str "ական") = true := fun h =>
      not_endsWith_pair word (str "ական") (str "ականություն")
        (by decide) (by decide) h e5
    have he3 : ¬ endsWith word (str "ային") = true := fun h =>
      not_endsWith_pair word (str "ային") (str "ականություն")
        (by decide) (by decide) h e5
    have he4 : ¬ endsWith word (str "ավոր") = true := fun h =>
      not_endsWith_pair word (str "ավոր") (str "ականություն")
        (by decide) (by decide) h e5
    simp [abstract_suffixes, List.filter_cons, he1, he2, he3, he4, e5]
  · by_cases e1 : endsWith word (str "ություն") = true
    · have he2 : ¬ endsWith word (str "ական") = true := fun h =>
        not_endsWith_pair word (str "ական") (str "ություն")
          (by decide) (by decide) h e1
      have he3 : ¬ endsWith word (str "ային") = true := fun h =>
        not_endsWith_pair word (str "ային") (str "ություն")
          (by decide) (by decide) h e1
      have he4 : ¬ endsWith word (str "ավոր") = true := fun h =>
        not_endsWith_pair word (str "ավոր") (str "ություն")
          (by decide) (by decide) h e1
      simp [abstract_suffixes, List.filter_cons, e1, he2, he3, he4, e5]
    · by_cases e2 : endsWith word (str "ական") = true
      · have he3 : ¬ endsWith word (str "ային") = true := fun h =>
          not_endsWith_pair word (str "ային") (str "ական")
            (by decide) (by decide) h e2
        have he4 : ¬ endsWith word (str "ավոր") = true := fun h =>
          not_endsWith_pair word (str "ավոր") (str "ական")
            (by decide) (by decide) h e2
        simp [abstract_suffixes, List.filter_cons, e1, e2, he3, he4, e5]
      · by_cases e3 : endsWith word (str "ային") = true
        · have he4 : ¬ endsWith word (str "ավոր") = true := fun h =>
            not_endsWith_pair word (str "ավոր") (str "ային")
              (by decide) (by decide) h e3
          simp [abstract_suffixes, List.filter_cons, e1, e2, e3, he4, e5]
        · by_cases e4 : endsWith word (str "ավոր") = true
          · simp [abstract_suffixes, List.filter_cons, e1, e2, e3, e4, e5]
          · simp [abstract_suffixes, List.filter_cons, e1, e2, e3, e4, e5]

/-- C6 counterexample: the fallback re-scan does NOT apply the same
rejection filters as the numbered-chunk path.  On `"раз два три четыре
пять"` the numbered path rejects the candidate because its word count 5
exceeds 4, so steps 1–5 yield nothing; the fallback then accepts the very
same five-word segment, because its threshold is `> 5`, not `> 4`.
Likewise `"желание"` is rejected by the numbered path's six-pattern list
but accepted by the fallback, which checks only four patterns. -/
theorem c6_fallback_filters_differ :
    clean_translation (str "раз два три четыре пять") =
      ([str "раз два три четыре пять"], []) ∧
    wordCount (str "раз два три четыре пять") = 5 ∧
    clean_translation (str "желание") = ([str "желание"], []) := by
  decide

/-- C6 amended: the fallback applies analogous but weaker filters — it
rejects every cleaned segment whose word count exceeds 5 (not 4), and it
rejects every cleaned segment matching one of the four copular
sentence-patterns (omitting the `"желание"` and `"последний бой"`
heuristics of the numbered path); a five-word segment or a segment
matching only the omitted patterns survives the fallback. -/
theorem c6_fallback_filter_bounds (seg : Str) :
    (wordCount (cleanSegment seg) > 5 → fallbackKeep seg = none) ∧
    (usagePatterns4 (toLowerStr (cleanSegment seg)) = true →
      fallbackKeep seg = none) := by
  constructor
  · intro hwc
    have h5 : decide (wordCount (cleanSegment seg) > 5) = true := by
      simp [hwc]
    simp [fallbackKeep, h5]
  · intro hp
    simp [fallbackKeep, hp]

/-- Witness for the amended C6: a six-word segment is rejected by the
fallback, and a segment matching the first copular pattern is rejected. -/
theorem c6_fallback_filter_bounds_witness :
    (wordCount (cleanSegment (str "а б в г д е")) > 5 ∧
      fallbackKeep (str "а б в г д е") = none) ∧
    (usagePatterns4 (toLowerStr (cleanSegment (str "это есть наш"))) = true ∧
      fallbackKeep (str "это есть наш") = none) :=
  ⟨⟨by decide, (c6_fallback_filter_bounds (str "а б в г д е")).1 (by decide)⟩,
   ⟨by decide, (c6_fallback_filter_bounds (str "это есть наш")).2 (by decide)⟩⟩

/-- C8: Index-parse scenario — parsing the byte stream
`"abc\x00\x00\x00\x00\x05\x00\x00\x00\x03"` yields exactly one entry,
`("abc", 5, 3)`. -/
theorem c8_idx_scenario :
    parse_stardict_idx idxScenarioBytes = [(str "abc", 5, 3)] := by
  decide

/-- C9: Normalizer scenario — `clean_translation` on
`"1. գ. Нация. ◊ example text"` returns meanings `["нация"]` and
usage-example string `"example text"`. -/
theorem c9_normalizer_scenario :
    clean_translation (str "1. գ. Нация. ◊ example text") =
      ([str "нация"], str "example text") := by
  decide

/-- C4: on a record whose word bytes are not valid UTF-8 the parser's
`continue` fires directly after the null terminator, WITHOUT consuming
the record's offset and size fields; those eight bytes are then
reinterpreted as the start of the next record, desynchronizing all
subsequent parsing.  On `badIdxBytes` (bad record `0xFF`, offset 5,
size 3, followed by a good record `"abc"`, offset 1, size 2) the claimed
behaviour would yield `[("abc", 1, 2)]`, but the code yields
`[("", 1280, 865), ("bc", 1, 2)]`: the bad record's offset/size bytes
become an empty word with garbage offset/size, and the following word
loses its first byte. -/
theorem c4_idx_bad_utf8_desync :
    parse_stardict_idx badIdxBytes = [([], 1280, 865), (str "bc", 1, 2)] ∧
    parse_stardict_idx badIdxBytes ≠ [(str "abc", 1, 2)] := by
  decide

/-- C10: `fix_ocr_pronunciation` is the identity on every string that
contains a non-digit character and on every all-digit string longer than
5 characters: whenever its output differs from its input, the input is a
non-empty all-digit string of length at most 5.  Every key of the
substitution table is itself an all-digit string. -/
theorem c10_fix_ocr_identity (pron : Str)
    (h : fix_ocr_pronunciation pron ≠ pron) :
    (∀ kv ∈ ocr_fixes, kv.1.all isDigitCp = true) ∧
    pron ≠ [] ∧ pron.all isDigitCp = true ∧ pron.length ≤ 5 := by
  refine ⟨by decide, ?_⟩
  by_cases hnil : pron = []
  · subst hnil
    simp [fix_ocr_pronunciation] at h
  · rw [fix_ocr_pronunciation, if_neg hnil] at h
    cases hl : ocr_fixes.lookup pron with
    | some v =>
      have hkeys : pron = str "879" ∨ pron = str "8" ∨ pron = str "7" ∨
          pron = str "9" ∨ pron = str "0" ∨ pron = str "1" ∨
          pron = str "5" := by
        by_contra hno
        push_neg at hno
        obtain ⟨n1, n2, n3, n4, n5, n6, n7⟩ := hno
        have hnone : ocr_fixes.lookup pron = none := by
          simp [ocr_fixes, List.lookup, beq_false_of_ne n1,
            beq_false_of_ne n2, beq_false_of_ne n3, beq_false_of_ne n4,
            beq_false_of_ne n5, beq_false_of_ne n6, beq_false_of_ne n7]
        rw [hnone] at hl
        exact Option.noConfusion hl
      rcases hkeys with rfl | rfl | rfl | rfl | rfl | rfl | rfl <;>
        exact ⟨hnil, by decide, by decide⟩
    | none =>
      rw [hl] at h
      by_cases hd : (pron.all isDigitCp && decide (pron.length ≤ 5)) = true
      · rw [Bool.and_eq_true, decide_eq_true_eq] at hd
        exact ⟨hnil, hd.1, hd.2⟩
      · rw [if_neg hd] at h
        exact absurd rfl h

/-- Witness for C10: `"8"` is rewritten (to `"a"`), and it is indeed a
non-empty all-digit string of length at most 5. -/
theorem c10_fix_ocr_identity_witness :
    fix_ocr_pronunciation (str "8") ≠ str "8" ∧
    ((∀ kv ∈ ocr_fixes, kv.1.all isDigitCp = true) ∧
     str "8" ≠ [] ∧ (str "8").all isDigitCp = true ∧ (str "8").length ≤ 5) :=
  ⟨by decide, c10_fix_ocr_identity (str "8") (by decide)⟩
